import Mathlib

/-!
Shallow embedding of the poker-bench engine (src/src/game.py and the
interactive variant src/api/main.py), together with theorems settling the
frozen claims about its specification.

Conventions of the embedding:
* Python `int` is `Int`; chip counts may go negative exactly where the source
  allows them to.
* Mutable `Player` objects are player ids (`Nat`); the mutable chip counts and
  per-round contributions (`player_bets`) are id-indexed `List Int` columns of
  a state record, updated with `List.set`.
* The decision providers (`player.action_func`) are modelled as an oracle: a
  queue of responses consumed one per invocation; each invocation is recorded
  in a trace entry `(player, to_call, chips)` so that theorems can speak about
  how often and when providers are queried.
* `while` loops are fuel-indexed recursions returning `Option`; `none` means
  the fuel or the oracle ran out, and theorems are stated about completed
  (`some`) runs.
-/

namespace Poker

/-- The four suits (`Suit` enum in `constants_and_types.py`). -/
inductive Suit
| spades
| hearts
| diamonds
| clubs
deriving DecidableEq, Repr

/-- `Card = Tuple[int, Suit]`. -/
abbrev Card := Int × Suit

/-- `Hand = List[Card]`. -/
abbrev Hand := List Card

/-- Python `sorted(l, reverse=True)`. -/
def sortDesc {α : Type} [LinearOrder α] (l : List α) : List α :=
  (l.insertionSort (· ≤ ·)).reverse

/-- Core of `evaluate_hand`, operating on the descending-sorted rank list and
the flush flag; everything after the first two lines of the Python function
depends only on these two values. `sr` plays the role of `ranks`,
`sr.dedup` is the insertion-ordered key list of `rank_counts` (descending
first occurrences), and `sr.count r` is `rank_counts[r]`. -/
def straight_info (uniq : List Int) : Bool × List Int :=
  if uniq.length = 5 then
    if uniq.getD 0 0 - uniq.getD 4 0 = 4 then (true, uniq)
    else if uniq = [14, 5, 4, 3, 2] then (true, [5, 4, 3, 2, 1])
    else (false, uniq)
  else (false, uniq)

def evalCore (sr : List Int) (flush : Bool) : Int × List Int :=
  let uniq : List Int := sr.dedup
  let counts : List Nat := sortDesc (uniq.map (fun r => sr.count r))
  let isStraight := (straight_info uniq).1
  let uniq' := (straight_info uniq).2
  if isStraight && flush then (8, uniq')
  else if counts = [4, 1] then
    (7, uniq.filter (fun r => sr.count r = 4) ++ uniq.filter (fun r => sr.count r = 1))
  else if counts = [3, 2] then
    (6, uniq.filter (fun r => sr.count r = 3) ++ uniq.filter (fun r => sr.count r = 2))
  else if flush then (5, uniq')
  else if isStraight then (4, uniq')
  else if counts = [3, 1, 1] then
    (3, uniq.filter (fun r => sr.count r = 3) ++ sortDesc (uniq.filter (fun r => sr.count r = 1)))
  else if counts = [2, 2, 1] then
    (2, sortDesc (uniq.filter (fun r => sr.count r = 2)) ++ uniq.filter (fun r => sr.count r = 1))
  else if counts = [2, 1, 1, 1] then
    (1, uniq.filter (fun r => sr.count r = 2) ++ sortDesc (uniq.filter (fun r => sr.count r = 1)))
  else (0, uniq')

/-- `evaluate_hand(hand)` from `src/src/game.py` (identical in
`src/api/main.py`): hand category plus tiebreaker list.
`len(set(suits)) == 1` is the flush test. -/
def evaluate_hand (hand : Hand) : Int × List Int :=
  evalCore (sortDesc (hand.map Prod.fst)) ((hand.map Prod.snd).dedup.length == 1)

/-- Python list comparison (`<`) on integer lists, as used by tuple
comparison `score > best_score` in `best_hand_from_seven`. -/
def lexLtL : List Int → List Int → Bool
  | [], [] => false
  | [], _ :: _ => true
  | _ :: _, [] => false
  | a :: as, b :: bs => if a < b then true else if b < a then false else lexLtL as bs

/-- Python tuple comparison on `(hand_type, tiebreakers)` scores. -/
def scoreLt (x y : Int × List Int) : Bool :=
  if x.1 < y.1 then true else if y.1 < x.1 then false else lexLtL x.2 y.2

/-- One comparison step of the running maximum in `best_hand_from_seven`:
`if score > best_score: best_score = score`. -/
def maxScore (x y : Int × List Int) : Int × List Int :=
  if scoreLt x y then y else x

/-- `best_hand_from_seven(cards)` from `src/src/game.py`: maximum of
`evaluate_hand` over all five-card combinations, starting from the sentinel
`(-1, [])`. `List.sublistsLen 5 cards` enumerates exactly the 5-element
combinations of `cards`. -/
def best_hand_from_seven (cards : List Card) : Int × List Int :=
  ((List.sublistsLen 5 cards).map (fun c => evaluate_hand c)).foldl maxScore (-1, [])

/-- `deck.pop()`: removes and returns the last element. -/
def popCard (deck : List Card) : Option (Card × List Card) :=
  match deck.getLast? with
  | none => none
  | some c => some (c, deck.dropLast)

/-- `deal_cards(deck, num_cards) = [deck.pop() for _ in range(num_cards)]`.
Popping an empty deck raises IndexError in Python; the whole call then
produces no list, which the embedding renders as `none`. -/
def deal_cards (deck : List Card) : Nat → Option (List Card × List Card)
  | 0 => some ([], deck)
  | n + 1 =>
    match popCard deck with
    | none => none
    | some (c, deck') =>
      match deal_cards deck' n with
      | none => none
      | some (cs, deck'') => some (c :: cs, deck'')

/-- `distribute_winnings(winners, pot)` from `src/src/game.py`, acting on the
id-indexed chip column. A single winner takes the whole pot; otherwise each
winner gets `pot // len(winners)` and the first `pot % len(winners)` winners
one extra chip each. Lean `Int` division is Euclidean, which agrees with
Python floor division whenever the divisor is positive, as it is here. -/
def distribute_winnings (winners : List Nat) (pot : Int) (chips : List Int) : List Int :=
  match winners with
  | [w] => chips.set w (chips.getD w 0 + pot)
  | _ =>
    let n : Int := (winners.length : Int)
    let split := pot / n
    let rem := pot % n
    let chips1 := winners.foldl (fun c w => c.set w (c.getD w 0 + split)) chips
    (winners.take rem.toNat).foldl (fun c w => c.set w (c.getD w 0 + 1)) chips1

/-- `apply_blinds(players)` from `src/src/game.py`. The random rotation index
is passed explicitly; the list is rotated left by it (repeated
`players.append(players.pop(0))`), then the small and big blinds are debited
from positions 0 and 1 unconditionally. Returns the rotated chip column and
the pot (`small_blind + big_blind`). -/
def apply_blinds (chips : List Int) (smallBlind bigBlind : Int) (rotateIndex : Nat) :
    List Int × Int :=
  let rotated := chips.rotate rotateIndex
  let r1 := rotated.set 0 (rotated.getD 0 0 - smallBlind)
  let r2 := r1.set 1 (r1.getD 1 0 - bigBlind)
  (r2, smallBlind + bigBlind)

/-- `Action` from `constants_and_types.py`. -/
inductive Action
| fold
| check
| call
| raise
deriving DecidableEq, Repr

/-- The mutable state a betting round acts on: the id-indexed chip column
(`player.chips`), the id-indexed per-round contribution column
(`player_bets`), the pot, the current highest bet, and the list of active
player ids (`active_players`, mutated by folds). -/
structure GState where
  chips : List Int
  bets : List Int
  pot : Int
  currentBet : Int
  active : List Nat
deriving DecidableEq, Repr

/-- `calculate_max_callable_amount(raising_player, player_bets, active_players)`
from `src/src/game.py`. The Python accumulator starts at `float("inf")`;
`none` stands for that infinity (it survives only when no other active player
exists). -/
def calculate_max_callable_amount (p : Nat) (st : GState) : Option Int :=
  if st.active.length ≤ 1 then
    some (st.bets.getD p 0 + st.chips.getD p 0)
  else
    st.active.foldl
      (fun acc o =>
        if o = p then acc
        else
          match acc with
          | none => some (st.bets.getD o 0 + st.chips.getD o 0)
          | some m => some (min m (st.bets.getD o 0 + st.chips.getD o 0)))
      none

/-- `process_betting_action(player, action, amount, player_bets, pot,
current_bet, active_players)` from `src/src/game.py`. Returns the updated
state together with `was_raise` and `actual_amount` (the last two components
of the Python return tuple). -/
def process_betting_action (p : Nat) (act : Action) (amount : Int) (st : GState) :
    GState × Bool × Int :=
  match act with
  | .fold => ({ st with active := st.active.erase p }, false, 0)
  | .check => (st, false, 0)
  | .call =>
    let toCall := st.currentBet - st.bets.getD p 0
    let actual := min toCall (st.chips.getD p 0)
    ({ st with
        bets := st.bets.set p (st.bets.getD p 0 + actual)
        chips := st.chips.set p (st.chips.getD p 0 - actual)
        pot := st.pot + actual },
      false, actual)
  | .raise =>
    let maxCallable := calculate_max_callable_amount p st
    let proposed := st.bets.getD p 0 + amount
    let maxPlayerCanBet := st.bets.getD p 0 + st.chips.getD p 0
    let effective :=
      match maxCallable with
      | none => min proposed maxPlayerCanBet
      | some mc => min (min proposed mc) maxPlayerCanBet
    let actual := effective - st.bets.getD p 0
    ({ st with
        bets := st.bets.set p effective
        chips := st.chips.set p (st.chips.getD p 0 - actual)
        pot := st.pot + actual
        currentBet := effective },
      decide (st.currentBet < effective), actual)

/-- `all_players_all_in(active_players)`. -/
def all_players_all_in (st : GState) : Bool :=
  st.active.all (fun p => st.chips.getD p 0 == 0)

/-- The re-queue block of `betting_round` (both engines): after a raise,
append every other active player who is not already queued and whose
contribution this round is below the (new) current bet. `st` is the state
after processing the action. -/
def requeue (p : Nat) (st : GState) (q : List Nat) : List Nat :=
  st.active.foldl
    (fun acc o =>
      if o ≠ p ∧ o ∉ acc ∧ st.bets.getD o 0 < st.currentBet then acc ++ [o] else acc)
    q

/-- The queue after one processed turn: re-queue on a raise, otherwise keep
the remaining queue. -/
def nextQueue (wasRaise : Bool) (p : Nat) (st : GState) (rest : List Nat) : List Nat :=
  if wasRaise then requeue p st rest else rest

/-- One `(player, to_call, chips)` record per decision-provider invocation. -/
abbrev Trace := List (Nat × Int × Int)

/-- The `while players_to_act` loop of `betting_round` in `src/src/game.py`,
fuel-indexed. Every queued player still active has their `action_func`
awaited (one oracle response consumed, one trace entry recorded); the action
is processed, a raise re-queues, and the loop stops early when one active
player remains or all active players are all-in. -/
def bettingLoop :
    Nat → GState → List Nat → List (Action × Int) → Trace → Option (GState × Trace)
  | 0, _, _, _, _ => none
  | _ + 1, st, [], _, trace => some (st, trace)
  | fuel + 1, st, p :: rest, oracle, trace =>
    if p ∈ st.active then
      match oracle with
      | [] => none
      | (act, amt) :: oracleRest =>
        let toCall := st.currentBet - st.bets.getD p 0
        let trace' := trace ++ [(p, toCall, st.chips.getD p 0)]
        let res := process_betting_action p act amt st
        let st' := res.1
        let queue' := nextQueue res.2.1 p st' rest
        if st'.active.length = 1 then some (st', trace')
        else if all_players_all_in st' then some (st', trace')
        else bettingLoop fuel st' queue' oracleRest trace'
    else bettingLoop fuel st rest oracle trace

/-- `betting_round` from `src/src/game.py`: short-circuit when all active
players are all-in, otherwise initialise `player_bets` from the `blinds`
parameter (zeros when absent) and run the loop over the active players in
seating order. The bookkeeping fields of `BettingRoundResult` that no claim
mentions (round number, phase tag, per-player action map, community cards)
are omitted; the trace stands in for the sequence of provider invocations. -/
def betting_round (fuel : Nat) (st : GState) (blinds : Option (List Int))
    (oracle : List (Action × Int)) : Option (GState × Trace) :=
  if all_players_all_in st then some (st, [])
  else
    let st1 :=
      { st with
          bets :=
            match blinds with
            | some b => b
            | none => List.replicate st.chips.length 0 }
    bettingLoop fuel st1 st1.active oracle []

/-- The five actions of the interactive engine in `src/api/main.py`
(`get_player_action` also returns "bet"). -/
inductive ApiAction
| fold
| check
| call
| bet
| raise
deriving DecidableEq, Repr

/-- The `while players_to_act` loop of `betting_round` in `src/api/main.py`.
Unlike the core engine, a queued player with `to_call >= player.chips` is
auto-resolved as `("call", player.chips)` without consulting
`get_player_action` (no oracle consumption, no trace entry); "bet" and
"raise" both add `amount` to the player's contribution and make it the new
current bet; only a fold that leaves one active player breaks early. -/
def api_betting_loop :
    Nat → GState → List Nat → List (ApiAction × Int) → Trace → Option (GState × Trace)
  | 0, _, _, _, _ => none
  | _ + 1, st, [], _, trace => some (st, trace)
  | fuel + 1, st, p :: rest, oracle, trace =>
    if p ∈ st.active then
      let toCall := st.currentBet - st.bets.getD p 0
      let chipsP := st.chips.getD p 0
      let chosen : Option ((ApiAction × Int) × List (ApiAction × Int) × Trace) :=
        if chipsP ≤ toCall then some ((.call, chipsP), oracle, trace)
        else
          match oracle with
          | [] => none
          | r :: os => some (r, os, trace ++ [(p, toCall, chipsP)])
      match chosen with
      | none => none
      | some ((act, amount), oracle', trace') =>
        match act with
        | .fold =>
          let st' := { st with active := st.active.erase p }
          if st'.active.length = 1 then some (st', trace')
          else api_betting_loop fuel st' rest oracle' trace'
        | .check => api_betting_loop fuel st rest oracle' trace'
        | .call =>
          let st' :=
            { st with
                bets := st.bets.set p (st.bets.getD p 0 + amount)
                chips := st.chips.set p (st.chips.getD p 0 - amount)
                pot := st.pot + amount }
          api_betting_loop fuel st' rest oracle' trace'
        | .bet | .raise =>
          let newBet := st.bets.getD p 0 + amount
          let st' :=
            { st with
                bets := st.bets.set p newBet
                chips := st.chips.set p (st.chips.getD p 0 - amount)
                pot := st.pot + amount
                currentBet := newBet }
          api_betting_loop fuel st' (requeue p st' rest) oracle' trace'
    else api_betting_loop fuel st rest oracle trace

/-- `betting_round` from `src/api/main.py`: copy the `player_bets` parameter
(zeros when absent) and run the loop; there is no all-in short-circuit. -/
def api_betting_round (fuel : Nat) (st : GState) (playerBets : Option (List Int))
    (oracle : List (ApiAction × Int)) : Option (GState × Trace) :=
  let st1 :=
    { st with
        bets :=
          match playerBets with
          | some b => b
          | none => List.replicate st.chips.length 0 }
  api_betting_loop fuel st1 st1.active oracle []

/-- Sum of all players' chips plus the pot: the conserved quantity of the
chip-conservation invariant. -/
def totalChips (st : GState) : Int :=
  st.chips.sum + st.pot

/-- `evaluate_hand` lifted to multisets of cards. It is well defined because
the evaluator only looks at the sorted ranks and the set of suits, so it is
insensitive to the order of the five cards; this is the bridge used to carry
hand scores along permutations of the seven input cards. -/
def scoreM : Multiset Card → Int × List Int :=
  Quotient.lift evaluate_hand (by
    intro a b hab
    have hab' : a.Perm b := hab
    show evaluate_hand a = evaluate_hand b
    unfold evaluate_hand
    have hs : sortDesc (a.map Prod.fst) = sortDesc (b.map Prod.fst) := by
      unfold sortDesc
      have hperm : ((a.map Prod.fst).insertionSort (· ≤ ·)).Perm
          ((b.map Prod.fst).insertionSort (· ≤ ·)) :=
        (List.perm_insertionSort _ _).trans
          ((hab'.map Prod.fst).trans (List.perm_insertionSort _ _).symm)
      rw [List.eq_of_perm_of_sorted hperm (List.sorted_insertionSort _ _)
        (List.sorted_insertionSort _ _)]
    have hf : (a.map Prod.snd).dedup.length = (b.map Prod.snd).dedup.length :=
      ((hab'.map Prod.snd).dedup).length_eq
    rw [hs, hf])

theorem getD_set_self (l : List Int) (i : Nat) (v : Int) (h : i < l.length) :
    (l.set i v).getD i 0 = v := by
  induction l generalizing i with
  | nil => simp at h
  | cons a t ih =>
    cases i with
    | zero => rfl
    | succ j =>
      simp only [List.set_cons_succ, List.getD_cons_succ]
      exact ih j (by simpa using h)

theorem getD_set_ne (l : List Int) (i j : Nat) (v : Int) (h : i ≠ j) :
    (l.set i v).getD j 0 = l.getD j 0 := by
  induction l generalizing i j with
  | nil => simp
  | cons a t ih =>
    cases i with
    | zero =>
      cases j with
      | zero => exact absurd rfl h
      | succ j' => simp
    | succ i' =>
      cases j with
      | zero => simp
      | succ j' =>
        simp only [List.set_cons_succ, List.getD_cons_succ]
        exact ih i' j' (fun hh => h (by rw [hh]))

theorem sum_set_int (l : List Int) (i : Nat) (v : Int) (h : i < l.length) :
    (l.set i v).sum = l.sum - l.getD i 0 + v := by
  induction l generalizing i with
  | nil => simp at h
  | cons a t ih =>
    cases i with
    | zero => simp [List.sum_cons]; ring
    | succ j =>
      have hj : j < t.length := by simpa using h
      simp only [List.set_cons_succ, List.sum_cons, List.getD_cons_succ, ih j hj]
      ring

theorem process_chips_length (p : Nat) (act : Action) (amt : Int) (st : GState) :
    (process_betting_action p act amt st).1.chips.length = st.chips.length := by
  cases act <;>
    simp [process_betting_action]

theorem process_bets_length (p : Nat) (act : Action) (amt : Int) (st : GState) :
    (process_betting_action p act amt st).1.bets.length = st.bets.length := by
  cases act <;>
    simp [process_betting_action]

theorem process_active_subset (p : Nat) (act : Action) (amt : Int) (st : GState) :
    (process_betting_action p act amt st).1.active ⊆ st.active := by
  cases act <;>
    simp [process_betting_action, List.erase_subset, List.Subset.refl]

theorem process_conserves (p : Nat) (act : Action) (amt : Int) (st : GState)
    (hp : p < st.chips.length) :
    (process_betting_action p act amt st).1.chips.sum + (process_betting_action p act amt st).1.pot
      = st.chips.sum + st.pot := by
  cases act with
  | fold => simp [process_betting_action]
  | check => simp [process_betting_action]
  | call =>
    simp only [process_betting_action]
    rw [sum_set_int _ _ _ hp]
    ring
  | raise =>
    simp only [process_betting_action]
    rw [sum_set_int _ _ _ hp]
    ring

theorem process_player_conserves (p : Nat) (act : Action) (amt : Int) (st : GState)
    (hp : p < st.chips.length) (hlen : st.bets.length = st.chips.length) (q : Nat) :
    (process_betting_action p act amt st).1.bets.getD q 0
        + (process_betting_action p act amt st).1.chips.getD q 0
      = st.bets.getD q 0 + st.chips.getD q 0 := by
  have hpb : p < st.bets.length := by rw [hlen]; exact hp
  by_cases hq : p = q
  · subst hq
    cases act with
    | fold => simp [process_betting_action]
    | check => simp [process_betting_action]
    | call =>
      simp only [process_betting_action]
      rw [getD_set_self _ _ _ hpb, getD_set_self _ _ _ hp]
      ring
    | raise =>
      simp only [process_betting_action]
      rw [getD_set_self _ _ _ hpb, getD_set_self _ _ _ hp]
      ring
  · cases act with
    | fold => simp [process_betting_action]
    | check => simp [process_betting_action]
    | call =>
      simp only [process_betting_action]
      rw [getD_set_ne _ _ _ _ hq, getD_set_ne _ _ _ _ hq]
    | raise =>
      simp only [process_betting_action]
      rw [getD_set_ne _ _ _ _ hq, getD_set_ne _ _ _ _ hq]

theorem process_chips_nonneg (p : Nat) (act : Action) (amt : Int) (st : GState) (q : Nat)
    (hq : 0 ≤ st.chips.getD q 0) :
    0 ≤ (process_betting_action p act amt st).1.chips.getD q 0 := by
  by_cases hpq : p = q
  · subst hpq
    by_cases hp : p < st.chips.length
    · cases act with
      | fold => simpa [process_betting_action] using hq
      | check => simpa [process_betting_action] using hq
      | call =>
        simp only [process_betting_action]
        rw [getD_set_self _ _ _ hp]
        have := min_le_right (st.currentBet - st.bets.getD p 0) (st.chips.getD p 0)
        omega
      | raise =>
        simp only [process_betting_action]
        rw [getD_set_self _ _ _ hp]
        have heff :
            (match calculate_max_callable_amount p st with
              | none => min (st.bets.getD p 0 + amt) (st.bets.getD p 0 + st.chips.getD p 0)
              | some mc =>
                min (min (st.bets.getD p 0 + amt) mc) (st.bets.getD p 0 + st.chips.getD p 0))
              ≤ st.bets.getD p 0 + st.chips.getD p 0 := by
          cases calculate_max_callable_amount p st with
          | none => exact min_le_right _ _
          | some mc => exact min_le_right _ _
        omega
    · have hset : ∀ v : Int, st.chips.set p v = st.chips :=
        fun v => List.set_eq_of_length_le (by omega)
      cases act <;> simp only [process_betting_action] <;> (try simp only [hset]) <;> exact hq
  · cases act with
    | fold => simpa [process_betting_action] using hq
    | check => simpa [process_betting_action] using hq
    | call =>
      simp only [process_betting_action]
      rw [getD_set_ne _ _ _ _ hpq]
      exact hq
    | raise =>
      simp only [process_betting_action]
      rw [getD_set_ne _ _ _ _ hpq]
      exact hq

theorem bettingLoop_master :
    ∀ (fuel : Nat) (st : GState) (queue : List Nat) (oracle : List (Action × Int))
      (trace : Trace) (st' : GState) (trace' : Trace),
      bettingLoop fuel st queue oracle trace = some (st', trace') →
      (∀ q ∈ st.active, q < st.chips.length) →
      st.bets.length = st.chips.length →
      st'.chips.length = st.chips.length ∧
      st'.bets.length = st.bets.length ∧
      st'.active ⊆ st.active ∧
      st'.chips.sum + st'.pot = st.chips.sum + st.pot ∧
      (∀ q, st'.bets.getD q 0 + st'.chips.getD q 0 = st.bets.getD q 0 + st.chips.getD q 0) ∧
      (∀ q, 0 ≤ st.chips.getD q 0 → 0 ≤ st'.chips.getD q 0) := by
  intro fuel
  induction fuel with
  | zero =>
    intro st queue oracle trace st' trace' h
    simp [bettingLoop] at h
  | succ n ih =>
    intro st queue oracle trace st' trace' h hrange hlen
    cases queue with
    | nil =>
      simp only [bettingLoop, Option.some.injEq, Prod.mk.injEq] at h
      obtain ⟨h1, _⟩ := h
      subst h1
      exact ⟨rfl, rfl, List.Subset.refl _, rfl, fun _ => rfl, fun _ hq => hq⟩
    | cons p rest =>
      by_cases hp : p ∈ st.active
      · have hplt : p < st.chips.length := hrange p hp
        simp only [bettingLoop, if_pos hp] at h
        cases oracle with
        | nil => simp at h
        | cons r os =>
          obtain ⟨act, amt⟩ := r
          simp only at h
          have step :
              ∀ (st2 : GState), st2 = (process_betting_action p act amt st).1 →
                st2.chips.length = st.chips.length ∧
                st2.bets.length = st.bets.length ∧
                st2.active ⊆ st.active ∧
                st2.chips.sum + st2.pot = st.chips.sum + st.pot ∧
                (∀ q, st2.bets.getD q 0 + st2.chips.getD q 0
                    = st.bets.getD q 0 + st.chips.getD q 0) ∧
                (∀ q, 0 ≤ st.chips.getD q 0 → 0 ≤ st2.chips.getD q 0) := by
            intro st2 h2
            subst h2
            exact ⟨process_chips_length p act amt st, process_bets_length p act amt st,
              process_active_subset p act amt st, process_conserves p act amt st hplt,
              process_player_conserves p act amt st hplt hlen,
              fun q hq => process_chips_nonneg p act amt st q hq⟩
          obtain ⟨s1, s2, s3, s4, s5, s6⟩ := step _ rfl
          split at h
          · obtain ⟨h1, _⟩ := Prod.mk.injEq .. ▸ Option.some.injEq .. ▸ h
            subst h1
            exact ⟨s1, s2, s3, s4, s5, s6⟩
          · split at h
            · obtain ⟨h1, _⟩ := Prod.mk.injEq .. ▸ Option.some.injEq .. ▸ h
              subst h1
              exact ⟨s1, s2, s3, s4, s5, s6⟩
            · have hrange2 : ∀ q ∈ (process_betting_action p act amt st).1.active,
                  q < (process_betting_action p act amt st).1.chips.length := by
                intro q hq
                rw [s1]
                exact hrange q (s3 hq)
              have hlen2 : (process_betting_action p act amt st).1.bets.length
                  = (process_betting_action p act amt st).1.chips.length := by
                rw [s1, s2, hlen]
              obtain ⟨t1, t2, t3, t4, t5, t6⟩ := ih _ _ _ _ _ _ h hrange2 hlen2
              refine ⟨by rw [t1, s1], by rw [t2, s2], fun x hx => s3 (t3 hx), by omega,
                fun q => ?_, fun q hq => t6 q (s6 q hq)⟩
              rw [t5 q, s5 q]
      · simp only [bettingLoop, if_neg hp] at h
        exact ih _ _ _ _ _ _ h hrange hlen

theorem foldMin_attained (f : Nat → Int) (p : Nat) :
    ∀ (l : List Nat) (acc : Option Int) (m : Int),
      l.foldl
        (fun acc o =>
          if o = p then acc
          else
            match acc with
            | none => some (f o)
            | some m' => some (min m' (f o))) acc = some m →
      (∃ o ∈ l, o ≠ p ∧ m = f o) ∨ acc = some m := by
  intro l
  induction l with
  | nil =>
    intro acc m h
    right
    simpa using h
  | cons o t ih =>
    intro acc m h
    simp only [List.foldl_cons] at h
    rcases ih _ m h with h1 | h1
    · obtain ⟨o', ho', hne, he⟩ := h1
      exact Or.inl ⟨o', List.mem_cons_of_mem _ ho', hne, he⟩
    · by_cases hop : o = p
      · rw [if_pos hop] at h1
        exact Or.inr h1
      · rw [if_neg hop] at h1
        cases acc with
        | none =>
          simp only [Option.some.injEq] at h1
          exact Or.inl ⟨o, List.mem_cons_self o t, hop, h1.symm⟩
        | some m0 =>
          simp only [Option.some.injEq] at h1
          rcases min_choice m0 (f o) with hmin | hmin
          · right
            rw [← h1, hmin]
          · exact Or.inl ⟨o, List.mem_cons_self o t, hop, by rw [← h1, hmin]⟩

theorem foldMin_le_acc (f : Nat → Int) (p : Nat) :
    ∀ (l : List Nat) (acc : Option Int) (m m₀ : Int),
      l.foldl
        (fun acc o =>
          if o = p then acc
          else
            match acc with
            | none => some (f o)
            | some m' => some (min m' (f o))) acc = some m →
      acc = some m₀ → m ≤ m₀ := by
  intro l
  induction l with
  | nil =>
    intro acc m m₀ h hacc
    rw [hacc] at h
    simp only [List.foldl_nil, Option.some.injEq] at h
    omega
  | cons o t ih =>
    intro acc m m₀ h hacc
    subst hacc
    simp only [List.foldl_cons] at h
    by_cases hop : o = p
    · rw [if_pos hop] at h
      exact ih _ m m₀ h rfl
    · rw [if_neg hop] at h
      have := ih _ m (min m₀ (f o)) h rfl
      have := min_le_left m₀ (f o)
      omega

theorem foldMin_lb (f : Nat → Int) (p : Nat) :
    ∀ (l : List Nat) (acc : Option Int) (m : Int),
      l.foldl
        (fun acc o =>
          if o = p then acc
          else
            match acc with
            | none => some (f o)
            | some m' => some (min m' (f o))) acc = some m →
      ∀ o ∈ l, o ≠ p → m ≤ f o := by
  intro l
  induction l with
  | nil => intro acc m _ o ho; simp at ho
  | cons a t ih =>
    intro acc m h o ho hne
    simp only [List.foldl_cons] at h
    rcases List.mem_cons.mp ho with rfl | hot
    · rw [if_neg hne] at h
      cases acc with
      | none =>
        have := foldMin_le_acc f p t _ m (f o) h rfl
        omega
      | some m0 =>
        have := foldMin_le_acc f p t _ m (min m0 (f o)) h rfl
        have := min_le_right m0 (f o)
        omega
    · by_cases hap : a = p
      · rw [if_pos hap] at h
        exact ih _ m h o hot hne
      · rw [if_neg hap] at h
        exact ih _ m h o hot hne

theorem foldMin_none (f : Nat → Int) (p : Nat) :
    ∀ (l : List Nat) (acc : Option Int),
      l.foldl
        (fun acc o =>
          if o = p then acc
          else
            match acc with
            | none => some (f o)
            | some m' => some (min m' (f o))) acc = none →
      acc = none ∧ ∀ o ∈ l, o = p := by
  intro l
  induction l with
  | nil =>
    intro acc h
    simp only [List.foldl_nil] at h
    exact ⟨h, by simp⟩
  | cons a t ih =>
    intro acc h
    simp only [List.foldl_cons] at h
    obtain ⟨hstep, hall⟩ := ih _ h
    by_cases hap : a = p
    · rw [if_pos hap] at hstep
      refine ⟨hstep, fun o ho => ?_⟩
      rcases List.mem_cons.mp ho with rfl | hot
      · exact hap
      · exact hall o hot
    · rw [if_neg hap] at hstep
      cases acc <;> simp at hstep

/-- C4: every single betting action (FOLD, CHECK, CALL, RAISE) processed by
`process_betting_action` leaves the sum of all players' chips plus the pot
unchanged, and consequently any completed run of `betting_round` preserves
that sum. -/
theorem chip_conservation :
    (∀ (p : Nat) (act : Action) (amt : Int) (st : GState),
      p < st.chips.length →
      totalChips (process_betting_action p act amt st).1 = totalChips st) ∧
    (∀ (fuel : Nat) (st : GState) (blinds : Option (List Int))
        (oracle : List (Action × Int)) (st' : GState) (trace : Trace),
      betting_round fuel st blinds oracle = some (st', trace) →
      (∀ q ∈ st.active, q < st.chips.length) →
      (∀ b, blinds = some b → b.length = st.chips.length) →
      totalChips st' = totalChips st) := by
  constructor
  · intro p act amt st hp
    exact process_conserves p act amt st hp
  · intro fuel st blinds oracle st' trace h hrange hblen
    unfold betting_round at h
    split at h
    · simp only [Option.some.injEq, Prod.mk.injEq] at h
      rw [h.1]
    · have hlen1 :
          (match blinds with
            | some b => b
            | none => List.replicate st.chips.length 0).length = st.chips.length := by
        cases blinds with
        | none => simp
        | some b => exact hblen b rfl
      have hm := bettingLoop_master fuel _ _ oracle [] st' trace h hrange hlen1
      dsimp only at hm
      unfold totalChips
      omega

/-- C4 witness: concrete instances of both conjuncts of `chip_conservation`:
a concrete CALL conserves chips + pot, and a completed concrete two-player
betting round (raise then call) conserves chips + pot. -/
theorem chip_conservation_witness :
    totalChips (process_betting_action 0 .call 0 ⟨[10], [0], 0, 5, [0]⟩).1
        = totalChips ⟨[10], [0], 0, 5, [0]⟩ ∧
    totalChips (⟨[80, 80], [20, 20], 40, 20, [0, 1]⟩ : GState)
        = totalChips ⟨[100, 100], [], 0, 0, [0, 1]⟩ :=
  ⟨chip_conservation.1 0 .call 0 ⟨[10], [0], 0, 5, [0]⟩ (by decide),
   chip_conservation.2 10 ⟨[100, 100], [], 0, 0, [0, 1]⟩ none
     [(.raise, 20), (.call, 0), (.check, 0)]
     ⟨[80, 80], [20, 20], 40, 20, [0, 1]⟩ [(0, 0, 100), (1, 20, 100)]
     (by decide) (by decide) (by decide)⟩

/-- C5 counterexample: `process_betting_action` does refund chips from the pot
on a RAISE when the smallest opponent maximum possible contribution (30) is
below the acting player's existing contribution this round (50): the pot drops
from 80 to 60 even though the proposed amount 100 is non-negative. -/
theorem pot_refund_counterexample :
    (process_betting_action 0 .raise 100 ⟨[10, 30], [50, 0], 80, 50, [0, 1]⟩).1.pot = 60 ∧
    (process_betting_action 0 .raise 100 ⟨[10, 30], [50, 0], 80, 50, [0, 1]⟩).2.2 = -20 ∧
    ¬ ((⟨[10, 30], [50, 0], 80, 50, [0, 1]⟩ : GState).pot
        ≤ (process_betting_action 0 .raise 100 ⟨[10, 30], [50, 0], 80, 50, [0, 1]⟩).1.pot) := by
  decide

/-- C5 amended: `process_betting_action` never decreases the pot provided the
acting player's chips are non-negative, the proposed amount is non-negative,
a CALL happens with the player's contribution not above the current bet, and a
RAISE happens while the acting player's contribution this round does not
exceed any other active player's maximum possible contribution. (The original
claim fails without the last condition: see the counterexample.) -/
theorem pot_monotone_amended :
    ∀ (p : Nat) (act : Action) (amt : Int) (st : GState),
      0 ≤ st.chips.getD p 0 →
      0 ≤ amt →
      (act = .call → st.bets.getD p 0 ≤ st.currentBet) →
      (act = .raise → ∀ o ∈ st.active, o ≠ p →
        st.bets.getD p 0 ≤ st.bets.getD o 0 + st.chips.getD o 0) →
      st.pot ≤ (process_betting_action p act amt st).1.pot := by
  intro p act amt st hc ha hcall hraise
  cases act with
  | fold => simp [process_betting_action]
  | check => simp [process_betting_action]
  | call =>
    simp only [process_betting_action]
    have h1 := hcall rfl
    have h2 : (0 : Int) ≤ min (st.currentBet - st.bets.getD p 0) (st.chips.getD p 0) :=
      le_min (by omega) hc
    omega
  | raise =>
    simp only [process_betting_action]
    have hb : st.bets.getD p 0 ≤
        (match calculate_max_callable_amount p st with
          | none => min (st.bets.getD p 0 + amt) (st.bets.getD p 0 + st.chips.getD p 0)
          | some mc =>
            min (min (st.bets.getD p 0 + amt) mc) (st.bets.getD p 0 + st.chips.getD p 0)) := by
      cases hmc : calculate_max_callable_amount p st with
      | none => exact le_min (by omega) (by omega)
      | some mc =>
        have hm : st.bets.getD p 0 ≤ mc := by
          unfold calculate_max_callable_amount at hmc
          split at hmc
          · simp only [Option.some.injEq] at hmc
            omega
          · rcases foldMin_attained (fun o => st.bets.getD o 0 + st.chips.getD o 0) p
                st.active none mc hmc with ⟨o, ho, hne, he⟩ | habs
            · rw [he]
              exact hraise rfl o ho hne
            · simp at habs
        exact le_min (le_min (by omega) hm) (by omega)
    omega

/-- C5 witness: a concrete CALL under the amended side conditions does not
decrease the pot. -/
theorem pot_monotone_witness :
    (⟨[100, 100], [0, 0], 15, 10, [0, 1]⟩ : GState).pot
      ≤ (process_betting_action 0 .call 0 ⟨[100, 100], [0, 0], 15, 10, [0, 1]⟩).1.pot :=
  pot_monotone_amended 0 .call 0 ⟨[100, 100], [0, 0], 15, 10, [0, 1]⟩
    (by decide) (by decide) (by decide) (by decide)

/-- C6 counterexample: `apply_blinds` debits the small blind unconditionally,
so a player holding 3 non-negative chips ends with -2 chips after posting the
5-chip small blind. -/
theorem blinds_negative_counterexample :
    (apply_blinds [3, 100] 5 10 0).1 = [-2, 90] ∧
    (∀ x ∈ ([3, 100] : List Int), 0 ≤ x) ∧
    ¬ (∀ x ∈ (apply_blinds [3, 100] 5 10 0).1, 0 ≤ x) := by
  decide

/-- C6 amended: CALL and RAISE always leave the debited (acting) player's chip
count non-negative, but posting the blinds debits the full blind
unconditionally and preserves non-negativity only when the two blind players'
stacks cover their blinds (the original claim fails for blinds: see the
counterexample). -/
theorem chips_nonneg_amended :
    (∀ (p : Nat) (amt : Int) (st : GState),
      p < st.chips.length →
      0 ≤ (process_betting_action p .call amt st).1.chips.getD p 0) ∧
    (∀ (p : Nat) (amt : Int) (st : GState),
      p < st.chips.length →
      0 ≤ (process_betting_action p .raise amt st).1.chips.getD p 0) ∧
    (∀ (chips : List Int) (sb bb : Int) (i : Nat),
      (∀ x ∈ chips, 0 ≤ x) →
      sb ≤ (chips.rotate i).getD 0 0 →
      bb ≤ (chips.rotate i).getD 1 0 →
      ∀ x ∈ (apply_blinds chips sb bb i).1, 0 ≤ x) := by
  refine ⟨?_, ?_, ?_⟩
  · intro p amt st hp
    simp only [process_betting_action]
    rw [getD_set_self _ _ _ hp]
    have := min_le_right (st.currentBet - st.bets.getD p 0) (st.chips.getD p 0)
    omega
  · intro p amt st hp
    simp only [process_betting_action]
    rw [getD_set_self _ _ _ hp]
    have heff :
        (match calculate_max_callable_amount p st with
          | none => min (st.bets.getD p 0 + amt) (st.bets.getD p 0 + st.chips.getD p 0)
          | some mc =>
            min (min (st.bets.getD p 0 + amt) mc) (st.bets.getD p 0 + st.chips.getD p 0))
          ≤ st.bets.getD p 0 + st.chips.getD p 0 := by
      cases calculate_max_callable_amount p st with
      | none => exact min_le_right _ _
      | some mc => exact min_le_right _ _
    omega
  · intro chips sb bb i hnn h0 h1 x hx
    simp only [apply_blinds] at hx
    rcases List.mem_or_eq_of_mem_set hx with hx1 | hx1
    · rcases List.mem_or_eq_of_mem_set hx1 with hx2 | hx2
      · exact hnn x ((List.rotate_perm chips i).subset hx2)
      · omega
    · have heq : ((chips.rotate i).set 0 ((chips.rotate i).getD 0 0 - sb)).getD 1 0
          = (chips.rotate i).getD 1 0 := getD_set_ne _ 0 1 _ (by omega)
      omega

/-- C6 witness: concrete instances of the three conjuncts of
`chips_nonneg_amended`: an all-in CALL, an oversized RAISE, and blinds posted
from sufficient stacks all leave every chip count non-negative. -/
theorem chips_nonneg_witness :
    (0 ≤ (process_betting_action 0 .call 0 ⟨[7], [0], 0, 20, [0]⟩).1.chips.getD 0 0) ∧
    (0 ≤ (process_betting_action 0 .raise 50 ⟨[7], [0], 0, 0, [0]⟩).1.chips.getD 0 0) ∧
    (∀ x ∈ (apply_blinds [10, 20] 5 10 0).1, 0 ≤ x) :=
  ⟨chips_nonneg_amended.1 0 0 ⟨[7], [0], 0, 20, [0]⟩ (by decide),
   chips_nonneg_amended.2.1 0 50 ⟨[7], [0], 0, 0, [0]⟩ (by decide),
   chips_nonneg_amended.2.2 [10, 20] 5 10 0 (by decide) (by decide) (by decide)⟩

theorem mem_requeue_fold (p : Nat) (bets : List Int) (cb : Int) :
    ∀ (l : List Nat) (acc : List Nat) (o : Nat),
      (o ∈ l.foldl
        (fun acc o' => if o' ≠ p ∧ o' ∉ acc ∧ bets.getD o' 0 < cb then acc ++ [o'] else acc)
        acc) ↔
      o ∈ acc ∨ (o ∈ l ∧ o ≠ p ∧ bets.getD o 0 < cb) := by
  intro l
  induction l with
  | nil => intro acc o; simp
  | cons a t ih =>
    intro acc o
    simp only [List.foldl_cons]
    by_cases hcond : a ≠ p ∧ a ∉ acc ∧ bets.getD a 0 < cb
    · rw [if_pos hcond, ih]
      constructor
      · rintro (hin | ⟨hot, hP⟩)
        · rcases List.mem_append.mp hin with h | h
          · exact Or.inl h
          · rcases List.mem_singleton.mp h with rfl
            exact Or.inr ⟨List.mem_cons_self _ _, hcond.1, hcond.2.2⟩
        · exact Or.inr ⟨List.mem_cons_of_mem _ hot, hP⟩
      · rintro (h | ⟨hoat, hP⟩)
        · exact Or.inl (List.mem_append.mpr (Or.inl h))
        · rcases List.mem_cons.mp hoat with rfl | hot
          · exact Or.inl (List.mem_append.mpr (Or.inr (List.mem_singleton.mpr rfl)))
          · exact Or.inr ⟨hot, hP⟩
    · rw [if_neg hcond, ih]
      constructor
      · rintro (h | ⟨hot, hP⟩)
        · exact Or.inl h
        · exact Or.inr ⟨List.mem_cons_of_mem _ hot, hP⟩
      · rintro (h | ⟨hoat, hP⟩)
        · exact Or.inl h
        · rcases List.mem_cons.mp hoat with rfl | hot
          · have ha : o ∈ acc := by
              by_contra hna
              exact hcond ⟨hP.1, hna, hP.2⟩
            exact Or.inl ha
          · exact Or.inr ⟨hot, hP⟩

theorem mem_requeue (p : Nat) (st : GState) (q : List Nat) (o : Nat) :
    o ∈ requeue p st q ↔
      o ∈ q ∨ (o ∈ st.active ∧ o ≠ p ∧ st.bets.getD o 0 < st.currentBet) := by
  unfold requeue
  exact mem_requeue_fold p st.bets st.currentBet st.active q o

theorem process_raise_char (p : Nat) (amt : Int) (st : GState) (hp : p < st.bets.length) :
    (process_betting_action p .raise amt st).1.currentBet
        = (process_betting_action p .raise amt st).1.bets.getD p 0 ∧
    (process_betting_action p .raise amt st).2.1
        = decide (st.currentBet < (process_betting_action p .raise amt st).1.bets.getD p 0) ∧
    (process_betting_action p .raise amt st).1.active = st.active ∧
    (process_betting_action p .raise amt st).1.bets
        = st.bets.set p ((process_betting_action p .raise amt st).1.bets.getD p 0) := by
  simp only [process_betting_action]
  refine ⟨(getD_set_self _ _ _ hp).symm, ?_, trivial, ?_⟩
  · exact congrArg (fun x => decide (st.currentBet < x)) (getD_set_self _ _ _ hp).symm
  · exact congrArg (st.bets.set p) (getD_set_self _ _ _ hp).symm

/-- C2 counterexample: the claim asserts that a RAISE whose capped total (here
3) does not strictly exceed the current highest bet (here 10) leaves the
current highest bet unchanged; instead the engine replaces the current bet by
the capped total, lowering it from 10 to 3. -/
theorem raise_lowers_bet_counterexample :
    (process_betting_action 0 .raise 3 ⟨[3, 100], [0, 0], 15, 10, [0, 1]⟩).1.bets.getD 0 0 = 3 ∧
    ((3 : Int) ≤ 10) ∧
    (process_betting_action 0 .raise 3 ⟨[3, 100], [0, 0], 15, 10, [0, 1]⟩).1.currentBet = 3 ∧
    ¬ ((process_betting_action 0 .raise 3 ⟨[3, 100], [0, 0], 15, 10, [0, 1]⟩).1.currentBet
        = (⟨[3, 100], [0, 0], 15, 10, [0, 1]⟩ : GState).currentBet) := by
  decide

/-- C2 amended: a RAISE whose capped total does not strictly exceed the current
highest bet is not flagged as a raise and re-queues nobody, but the current
highest bet is set to the capped total (which may be lower than before) rather
than left unchanged; a RAISE whose capped total strictly exceeds the current
highest bet makes it the new highest bet and re-queues exactly the other
active players not already queued whose contribution this round is below it;
CHECK and CALL are never flagged as raises and re-queue nobody. -/
theorem raise_reopen_amended :
    ∀ (p : Nat) (amt : Int) (st : GState) (rest : List Nat),
      p < st.bets.length →
      (((process_betting_action p .raise amt st).1.bets.getD p 0 ≤ st.currentBet →
          (process_betting_action p .raise amt st).2.1 = false ∧
          (process_betting_action p .raise amt st).1.currentBet
            = (process_betting_action p .raise amt st).1.bets.getD p 0 ∧
          nextQueue (process_betting_action p .raise amt st).2.1 p
            (process_betting_action p .raise amt st).1 rest = rest) ∧
        (st.currentBet < (process_betting_action p .raise amt st).1.bets.getD p 0 →
          (process_betting_action p .raise amt st).2.1 = true ∧
          (process_betting_action p .raise amt st).1.currentBet
            = (process_betting_action p .raise amt st).1.bets.getD p 0 ∧
          (∀ o : Nat,
            o ∈ nextQueue (process_betting_action p .raise amt st).2.1 p
              (process_betting_action p .raise amt st).1 rest ↔
            o ∈ rest ∨ (o ∈ (process_betting_action p .raise amt st).1.active ∧ o ≠ p ∧
              (process_betting_action p .raise amt st).1.bets.getD o 0
                < (process_betting_action p .raise amt st).1.bets.getD p 0)))) ∧
      ((process_betting_action p .check amt st).2.1 = false ∧
        (process_betting_action p .call amt st).2.1 = false ∧
        nextQueue (process_betting_action p .check amt st).2.1 p
          (process_betting_action p .check amt st).1 rest = rest ∧
        nextQueue (process_betting_action p .call amt st).2.1 p
          (process_betting_action p .call amt st).1 rest = rest) := by
  intro p amt st rest hp
  obtain ⟨hcb, hwr, hact, _⟩ := process_raise_char p amt st hp
  refine ⟨⟨?_, ?_⟩, ?_, ?_, ?_, ?_⟩
  · intro h
    have hfalse : (process_betting_action p .raise amt st).2.1 = false := by
      rw [hwr]
      exact decide_eq_false (not_lt.mpr h)
    exact ⟨hfalse, hcb, by rw [hfalse]; rfl⟩
  · intro h
    have htrue : (process_betting_action p .raise amt st).2.1 = true := by
      rw [hwr]
      exact decide_eq_true h
    refine ⟨htrue, hcb, fun o => ?_⟩
    have hq : nextQueue (process_betting_action p .raise amt st).2.1 p
        (process_betting_action p .raise amt st).1 rest
        = requeue p (process_betting_action p .raise amt st).1 rest := by
      rw [htrue]
      rfl
    rw [hq, mem_requeue, hact, hcb]
  · rfl
  · rfl
  · rfl
  · rfl

/-- C2 witness: a concrete opening RAISE to 20 over a current bet of 0 is
flagged as a raise, sets the current bet to the capped total, and the re-queue
membership characterisation holds. -/
theorem raise_reopen_witness :
    (process_betting_action 0 .raise 20 ⟨[100, 100], [0, 0], 0, 0, [0, 1]⟩).2.1 = true ∧
    (process_betting_action 0 .raise 20 ⟨[100, 100], [0, 0], 0, 0, [0, 1]⟩).1.currentBet
      = (process_betting_action 0 .raise 20 ⟨[100, 100], [0, 0], 0, 0, [0, 1]⟩).1.bets.getD 0 0 ∧
    (∀ o : Nat,
      o ∈ nextQueue (process_betting_action 0 .raise 20 ⟨[100, 100], [0, 0], 0, 0, [0, 1]⟩).2.1 0
        (process_betting_action 0 .raise 20 ⟨[100, 100], [0, 0], 0, 0, [0, 1]⟩).1 [] ↔
      o ∈ ([] : List Nat) ∨
        (o ∈ (process_betting_action 0 .raise 20 ⟨[100, 100], [0, 0], 0, 0, [0, 1]⟩).1.active ∧
          o ≠ 0 ∧
          (process_betting_action 0 .raise 20 ⟨[100, 100], [0, 0], 0, 0, [0, 1]⟩).1.bets.getD o 0
            < (process_betting_action 0 .raise 20
                ⟨[100, 100], [0, 0], 0, 0, [0, 1]⟩).1.bets.getD 0 0)) :=
  (raise_reopen_amended 0 20 ⟨[100, 100], [0, 0], 0, 0, [0, 1]⟩ [] (by decide)).1.2 (by decide)

/-- C3: with at least two active players, a processed RAISE caps the acting
player's total contribution this round at the minimum of the proposed total,
the player's own maximum possible contribution, and the smallest maximum
possible contribution among the other active players (which
`calculate_max_callable_amount` computes: it lower-bounds and is attained);
consequently no player's contribution in a completed betting loop ever exceeds
their contribution-plus-remaining-chips at the start of the round. -/
theorem raise_cap :
    (∀ (p : Nat) (amt : Int) (st : GState) (m : Int),
      2 ≤ st.active.length →
      p < st.bets.length →
      calculate_max_callable_amount p st = some m →
      (process_betting_action p .raise amt st).1.bets.getD p 0
          = min (st.bets.getD p 0 + amt) (min (st.bets.getD p 0 + st.chips.getD p 0) m) ∧
      (∀ o ∈ st.active, o ≠ p → m ≤ st.bets.getD o 0 + st.chips.getD o 0) ∧
      (∃ o ∈ st.active, o ≠ p ∧ m = st.bets.getD o 0 + st.chips.getD o 0)) ∧
    (∀ (p : Nat) (st : GState),
      2 ≤ st.active.length →
      (∃ o ∈ st.active, o ≠ p) →
      ∃ m, calculate_max_callable_amount p st = some m) ∧
    (∀ (fuel : Nat) (st : GState) (queue : List Nat) (oracle : List (Action × Int))
        (trace : Trace) (st' : GState) (trace' : Trace),
      bettingLoop fuel st queue oracle trace = some (st', trace') →
      (∀ q ∈ st.active, q < st.chips.length) →
      st.bets.length = st.chips.length →
      (∀ q, 0 ≤ st.chips.getD q 0) →
      ∀ q, st'.bets.getD q 0 ≤ st.bets.getD q 0 + st.chips.getD q 0) := by
  refine ⟨?_, ?_, ?_⟩
  · intro p amt st m hlen2 hpb hm
    have hfold : st.active.foldl
        (fun acc o =>
          if o = p then acc
          else
            match acc with
            | none => some (st.bets.getD o 0 + st.chips.getD o 0)
            | some m' => some (min m' (st.bets.getD o 0 + st.chips.getD o 0))) none = some m := by
      unfold calculate_max_callable_amount at hm
      rw [if_neg (by omega)] at hm
      exact hm
    refine ⟨?_, ?_, ?_⟩
    · simp only [process_betting_action, hm]
      rw [getD_set_self _ _ _ hpb]
      rw [min_assoc, min_comm m (st.bets.getD p 0 + st.chips.getD p 0)]
    · exact foldMin_lb _ p st.active none m hfold
    · rcases foldMin_attained _ p st.active none m hfold with h | h
      · exact h
      · simp at h
  · intro p st hlen2 hex
    obtain ⟨o, ho, hne⟩ := hex
    unfold calculate_max_callable_amount
    rw [if_neg (by omega)]
    cases hcase : st.active.foldl
        (fun acc o =>
          if o = p then acc
          else
            match acc with
            | none => some (st.bets.getD o 0 + st.chips.getD o 0)
            | some m' => some (min m' (st.bets.getD o 0 + st.chips.getD o 0))) none with
    | none =>
      obtain ⟨_, hall⟩ := foldMin_none _ p st.active none hcase
      exact absurd (hall o ho) hne
    | some m => exact ⟨m, rfl⟩
  · intro fuel st queue oracle trace st' trace' h hrange hlen hnn q
    obtain ⟨_, _, _, _, hcons, hpos⟩ :=
      bettingLoop_master fuel st queue oracle trace st' trace' h hrange hlen
    have h1 := hcons q
    have h2 := hpos q (hnn q)
    omega

/-- C3 witness: a concrete RAISE proposal of 70 by a player with 100 chips
against an opponent whose maximum possible contribution is 50 is capped at
min(70, min(100, 50)) = 50, and a completed concrete betting loop keeps every
contribution below the starting stack. -/
theorem raise_cap_witness :
    ((process_betting_action 0 .raise 70 ⟨[100, 50], [0, 0], 0, 0, [0, 1]⟩).1.bets.getD 0 0
        = min ((0 : Int) + 70) (min ((0 : Int) + 100) 50) ∧
      (∀ o ∈ ([0, 1] : List Nat), o ≠ 0 →
        (50 : Int) ≤ (⟨[100, 50], [0, 0], 0, 0, [0, 1]⟩ : GState).bets.getD o 0
          + (⟨[100, 50], [0, 0], 0, 0, [0, 1]⟩ : GState).chips.getD o 0) ∧
      (∃ o ∈ ([0, 1] : List Nat), o ≠ 0 ∧
        (50 : Int) = (⟨[100, 50], [0, 0], 0, 0, [0, 1]⟩ : GState).bets.getD o 0
          + (⟨[100, 50], [0, 0], 0, 0, [0, 1]⟩ : GState).chips.getD o 0)) ∧
    (∃ m, calculate_max_callable_amount 0 ⟨[100, 50], [0, 0], 0, 0, [0, 1]⟩ = some m) ∧
    ((⟨[80, 80], [20, 20], 40, 20, [0, 1]⟩ : GState).bets.getD 0 0
        ≤ (⟨[100, 100], [0, 0], 0, 0, [0, 1]⟩ : GState).bets.getD 0 0
          + (⟨[100, 100], [0, 0], 0, 0, [0, 1]⟩ : GState).chips.getD 0 0) :=
  ⟨raise_cap.1 0 70 ⟨[100, 50], [0, 0], 0, 0, [0, 1]⟩ 50 (by decide) (by decide) (by decide),
   raise_cap.2.1 0 ⟨[100, 50], [0, 0], 0, 0, [0, 1]⟩ (by decide) ⟨1, by decide, by decide⟩,
   raise_cap.2.2 10 ⟨[100, 100], [0, 0], 0, 0, [0, 1]⟩ [0, 1]
     [(.raise, 20), (.call, 0), (.check, 0)] []
     ⟨[80, 80], [20, 20], 40, 20, [0, 1]⟩ [(0, 0, 100), (1, 20, 100)]
     (by decide) (by decide) (by decide)
     (by
       intro q
       rcases q with _ | _ | n <;> simp [List.getD])
     0⟩

theorem api_loop_trace :
    ∀ (fuel : Nat) (st : GState) (queue : List Nat) (oracle : List (ApiAction × Int))
      (trace : Trace) (st' : GState) (trace' : Trace),
      api_betting_loop fuel st queue oracle trace = some (st', trace') →
      (∀ e ∈ trace, e.2.1 < e.2.2) →
      ∀ e ∈ trace', e.2.1 < e.2.2 := by
  intro fuel
  induction fuel with
  | zero =>
    intro st queue oracle trace st' trace' h
    simp [api_betting_loop] at h
  | succ n ih =>
    intro st queue oracle trace st' trace' h hinv
    cases queue with
    | nil =>
      simp only [api_betting_loop, Option.some.injEq, Prod.mk.injEq] at h
      rw [← h.2]
      exact hinv
    | cons p rest =>
      by_cases hp : p ∈ st.active
      · simp only [api_betting_loop, if_pos hp] at h
        by_cases hforce : st.chips.getD p 0 ≤ st.currentBet - st.bets.getD p 0
        · rw [if_pos hforce] at h
          exact ih _ _ _ _ _ _ h hinv
        · rw [if_neg hforce] at h
          cases oracle with
          | nil => simp at h
          | cons r os =>
            obtain ⟨act, amt⟩ := r
            have hnew : ∀ e ∈ trace
                ++ [(p, st.currentBet - st.bets.getD p 0, st.chips.getD p 0)],
                e.2.1 < e.2.2 := by
              intro e he
              rcases List.mem_append.mp he with h1 | h1
              · exact hinv e h1
              · rcases List.mem_singleton.mp h1 with rfl
                simp only
                omega
            cases act with
            | fold =>
              dsimp only at h
              split at h
              · simp only [Option.some.injEq, Prod.mk.injEq] at h
                rw [← h.2]
                exact hnew
              · exact ih _ _ _ _ _ _ h hnew
            | check => exact ih _ _ _ _ _ _ h hnew
            | call => exact ih _ _ _ _ _ _ h hnew
            | bet => exact ih _ _ _ _ _ _ h hnew
            | raise => exact ih _ _ _ _ _ _ h hnew
      · simp only [api_betting_loop, if_neg hp] at h
        exact ih _ _ _ _ _ _ h hinv

/-- C1 counterexample: in the core engine (`betting_round` of
`src/src/game.py`) a queued player holding 5 chips and facing a 10-chip call
is NOT auto-resolved as a forced call: the decision provider is invoked — the
trace records the invocation `(player 0, to_call 10, chips 5)` — and its FOLD
answer is obeyed, so the turn resolves as a fold, removing player 0 from the
active list. -/
theorem allin_query_counterexample :
    betting_round 10 ⟨[5, 100], [], 15, 10, [0, 1]⟩ none [(.fold, 0), (.check, 0)]
        = some (⟨[5, 100], [0, 0], 15, 10, [1]⟩, [(0, 10, 5)]) ∧
    ((5 : Int) ≤ 10) ∧
    (0 : Nat) ∉ (⟨[5, 100], [0, 0], 15, 10, [1]⟩ : GState).active := by
  decide

/-- C1 amended: the forced-call auto-resolution holds only in the interactive
engine of `src/api/main.py`: there, every decision-provider invocation in any
completed run happens with `to_call < chips`, i.e. a queued player with chips
at most the amount to call is resolved without any provider call. In the core
engine of `src/src/game.py` the provider is always queried; if it answers
CALL, the capped call makes the player contribute exactly their entire
remaining stack. -/
theorem allin_shortfall_amended :
    (∀ (fuel : Nat) (st : GState) (playerBets : Option (List Int))
        (oracle : List (ApiAction × Int)) (st' : GState) (trace : Trace),
      api_betting_round fuel st playerBets oracle = some (st', trace) →
      ∀ e ∈ trace, e.2.1 < e.2.2) ∧
    (∀ (p : Nat) (amt : Int) (st : GState),
      p < st.chips.length →
      st.bets.length = st.chips.length →
      st.chips.getD p 0 ≤ st.currentBet - st.bets.getD p 0 →
      (process_betting_action p .call amt st).2.2 = st.chips.getD p 0 ∧
      (process_betting_action p .call amt st).1.chips.getD p 0 = 0 ∧
      (process_betting_action p .call amt st).1.bets.getD p 0
          = st.bets.getD p 0 + st.chips.getD p 0 ∧
      (process_betting_action p .call amt st).1.pot = st.pot + st.chips.getD p 0) := by
  constructor
  · intro fuel st playerBets oracle st' trace h
    unfold api_betting_round at h
    exact api_loop_trace fuel _ _ oracle [] st' trace h (by simp)
  · intro p amt st hp hlen hshort
    have hpb : p < st.bets.length := by rw [hlen]; exact hp
    have hmin : min (st.currentBet - st.bets.getD p 0) (st.chips.getD p 0)
        = st.chips.getD p 0 := min_eq_right hshort
    simp only [process_betting_action, hmin]
    refine ⟨trivial, ?_, ?_, trivial⟩
    · rw [getD_set_self _ _ _ hp]
      omega
    · exact getD_set_self _ _ _ hpb

/-- C1 witness: in the concrete api-engine run, player 0 (5 chips vs 10 to
call) is forced all-in without a provider call — the only trace entry is
player 1's, with to_call 10 below chips 100 — and in the core engine a CALL by
a short-stacked player contributes the entire remaining stack. -/
theorem allin_shortfall_witness :
    (∀ e ∈ ([(1, 10, 100)] : Trace), e.2.1 < e.2.2) ∧
    ((process_betting_action 0 .call 0 ⟨[5, 100], [0, 0], 15, 10, [0, 1]⟩).2.2 = 5 ∧
      (process_betting_action 0 .call 0 ⟨[5, 100], [0, 0], 15, 10, [0, 1]⟩).1.chips.getD 0 0
          = 0 ∧
      (process_betting_action 0 .call 0 ⟨[5, 100], [0, 0], 15, 10, [0, 1]⟩).1.bets.getD 0 0
          = 0 + 5 ∧
      (process_betting_action 0 .call 0 ⟨[5, 100], [0, 0], 15, 10, [0, 1]⟩).1.pot = 15 + 5) :=
  ⟨allin_shortfall_amended.1 10 ⟨[5, 100], [], 15, 10, [0, 1]⟩ none [(.call, 10)]
      ⟨[0, 90], [5, 10], 30, 10, [0, 1]⟩ [(1, 10, 100)] (by decide),
   allin_shortfall_amended.2 0 0 ⟨[5, 100], [0, 0], 15, 10, [0, 1]⟩
      (by decide) (by decide) (by decide)⟩

theorem foldAdd_length (v : Int) :
    ∀ (ws : List Nat) (chips : List Int),
      (ws.foldl (fun c w => c.set w (c.getD w 0 + v)) chips).length = chips.length := by
  intro ws
  induction ws with
  | nil => intro chips; rfl
  | cons w t ih =>
    intro chips
    simp only [List.foldl_cons]
    rw [ih]
    exact List.length_set ..

theorem foldAdd_sum (v : Int) :
    ∀ (ws : List Nat) (chips : List Int),
      (∀ w ∈ ws, w < chips.length) →
      (ws.foldl (fun c w => c.set w (c.getD w 0 + v)) chips).sum
        = chips.sum + (ws.length : Int) * v := by
  intro ws
  induction ws with
  | nil => intro chips _; simp
  | cons w t ih =>
    intro chips hr
    simp only [List.foldl_cons]
    have hw : w < chips.length := hr w (List.mem_cons_self w t)
    have hr' : ∀ x ∈ t, x < (chips.set w (chips.getD w 0 + v)).length := by
      intro x hx
      rw [List.length_set]
      exact hr x (List.mem_cons_of_mem _ hx)
    rw [ih _ hr', sum_set_int _ _ _ hw]
    push_cast [List.length_cons]
    ring

theorem foldAdd_getD_notMem (v : Int) :
    ∀ (ws : List Nat) (chips : List Int) (x : Nat),
      x ∉ ws →
      (ws.foldl (fun c w => c.set w (c.getD w 0 + v)) chips).getD x 0 = chips.getD x 0 := by
  intro ws
  induction ws with
  | nil => intro chips x _; rfl
  | cons w t ih =>
    intro chips x hx
    simp only [List.foldl_cons]
    have hxw : w ≠ x := fun h => hx (h ▸ List.mem_cons_self w t)
    have hxt : x ∉ t := fun h => hx (List.mem_cons_of_mem _ h)
    rw [ih _ x hxt, getD_set_ne _ _ _ _ hxw]

theorem foldAdd_getD_mem (v : Int) :
    ∀ (ws : List Nat) (chips : List Int) (x : Nat),
      ws.Nodup →
      (∀ w ∈ ws, w < chips.length) →
      x ∈ ws →
      (ws.foldl (fun c w => c.set w (c.getD w 0 + v)) chips).getD x 0
        = chips.getD x 0 + v := by
  intro ws
  induction ws with
  | nil => intro chips x _ _ hx; simp at hx
  | cons w t ih =>
    intro chips x hnd hr hx
    simp only [List.foldl_cons]
    rcases List.mem_cons.mp hx with rfl | hxt
    · have hxnt : x ∉ t := (List.nodup_cons.mp hnd).1
      rw [foldAdd_getD_notMem v t _ x hxnt,
        getD_set_self _ _ _ (hr x (List.mem_cons_self x t))]
    · have hwx : w ≠ x := by
        rintro rfl
        exact (List.nodup_cons.mp hnd).1 hxt
      have hr' : ∀ y ∈ t, y < (chips.set w (chips.getD w 0 + v)).length := by
        intro y hy
        rw [List.length_set]
        exact hr y (List.mem_cons_of_mem _ hy)
      rw [ih _ x (List.nodup_cons.mp hnd).2 hr' hxt, getD_set_ne _ _ _ _ hwx]

/-- C7: pot settlement distributes the pot exactly. A single winner is
credited the full pot. With n >= 2 winners and a non-negative pot, the total
credited equals the pot, every winner among the first pot mod n (in list
order) is credited floor(pot / n) + 1, and every later winner is credited
exactly floor(pot / n). -/
theorem distribute_winnings_exact :
    (∀ (w : Nat) (pot : Int) (chips : List Int),
      w < chips.length →
      (distribute_winnings [w] pot chips).getD w 0 = chips.getD w 0 + pot ∧
      (distribute_winnings [w] pot chips).sum = chips.sum + pot) ∧
    (∀ (winners : List Nat) (pot : Int) (chips : List Int),
      2 ≤ winners.length →
      winners.Nodup →
      0 ≤ pot →
      (∀ w ∈ winners, w < chips.length) →
      (distribute_winnings winners pot chips).sum = chips.sum + pot ∧
      (∀ w ∈ winners.take (pot % (winners.length : Int)).toNat,
        (distribute_winnings winners pot chips).getD w 0
          = chips.getD w 0 + pot / (winners.length : Int) + 1) ∧
      (∀ w ∈ winners.drop (pot % (winners.length : Int)).toNat,
        (distribute_winnings winners pot chips).getD w 0
          = chips.getD w 0 + pot / (winners.length : Int))) := by
  constructor
  · intro w pot chips hw
    unfold distribute_winnings
    exact ⟨getD_set_self _ _ _ hw, by rw [sum_set_int _ _ _ hw]; ring⟩
  · intro winners pot chips hlen hnd hpot hr
    match winners, hlen with
    | w1 :: w2 :: rest, _ =>
      set ws := w1 :: w2 :: rest with hws
      have hn0 : 0 < (ws.length : Int) := by
        simp [hws]
        omega
      have hrem0 : 0 ≤ pot % (ws.length : Int) := Int.emod_nonneg pot (by omega)
      have hremlt : pot % (ws.length : Int) < (ws.length : Int) :=
        Int.emod_lt_of_pos pot hn0
      have hremle : (pot % (ws.length : Int)).toNat ≤ ws.length := by omega
      have hdw : distribute_winnings ws pot chips
          = ((ws.take (pot % (ws.length : Int)).toNat).foldl
              (fun c w => c.set w (c.getD w 0 + 1))
              (ws.foldl
                (fun c w => c.set w (c.getD w 0 + pot / (ws.length : Int))) chips)) := by
        rw [hws]
        rfl
      have hr1 : ∀ w ∈ ws, w <
          (ws.foldl (fun c w => c.set w (c.getD w 0 + pot / (ws.length : Int)))
            chips).length := by
        intro w hw
        rw [foldAdd_length]
        exact hr w hw
      have htakesub : ∀ w ∈ ws.take (pot % (ws.length : Int)).toNat, w ∈ ws :=
        fun w hw => List.mem_of_mem_take hw
      have htknd : (ws.take (pot % (ws.length : Int)).toNat).Nodup :=
        hnd.sublist (List.take_sublist _ _)
      refine ⟨?_, ?_, ?_⟩
      · rw [hdw]
        rw [foldAdd_sum 1 _ _ (fun w hw => hr1 w (htakesub w hw))]
        rw [foldAdd_sum _ _ _ hr]
        rw [List.length_take]
        have hmin : min (pot % (ws.length : Int)).toNat ws.length
            = (pot % (ws.length : Int)).toNat := by omega
        rw [hmin]
        have hde := Int.ediv_add_emod pot (ws.length : Int)
        have htn : ((pot % (ws.length : Int)).toNat : Int)
            = pot % (ws.length : Int) := Int.toNat_of_nonneg hrem0
        rw [htn]
        omega
      · intro w hw
        rw [hdw]
        rw [foldAdd_getD_mem 1 _ _ w htknd (fun x hx => hr1 x (htakesub x hx)) hw]
        rw [foldAdd_getD_mem _ _ _ w hnd hr (htakesub w hw)]
      · intro w hw
        have hwmem : w ∈ ws := List.mem_of_mem_drop hw
        have hwnotk : w ∉ ws.take (pot % (ws.length : Int)).toNat := by
          intro hcontra
          have hws2 := hnd
          rw [← List.take_append_drop (pot % (ws.length : Int)).toNat ws] at hws2
          exact (List.disjoint_of_nodup_append hws2) hcontra hw
        rw [hdw]
        rw [foldAdd_getD_notMem 1 _ _ w hwnotk]
        rw [foldAdd_getD_mem _ _ _ w hnd hr hwmem]

/-- C7 witness: a 101-chip pot split between two tied winners is distributed
as 51 and 50 (first winner in list order receives the remainder chip), and a
single winner receives the whole pot. -/
theorem distribute_winnings_witness :
    ((distribute_winnings [0] 101 [5, 5]).getD 0 0 = 5 + 101 ∧
      (distribute_winnings [0] 101 [5, 5]).sum = 10 + 101) ∧
    ((distribute_winnings [0, 1] 101 [0, 0]).sum = 0 + 101 ∧
      (∀ w ∈ ([0, 1] : List Nat).take ((101 : Int) % 2).toNat,
        (distribute_winnings [0, 1] 101 [0, 0]).getD w 0
          = ([0, 0] : List Int).getD w 0 + (101 : Int) / 2 + 1) ∧
      (∀ w ∈ ([0, 1] : List Nat).drop ((101 : Int) % 2).toNat,
        (distribute_winnings [0, 1] 101 [0, 0]).getD w 0
          = ([0, 0] : List Int).getD w 0 + (101 : Int) / 2)) :=
  ⟨distribute_winnings_exact.1 0 101 [5, 5] (by decide),
   distribute_winnings_exact.2 [0, 1] 101 [0, 0] (by decide) (by decide) (by decide)
     (by decide)⟩

/-- C10: dealing more cards than remain fails (an error, not a truncated
result), and dealing n <= remaining cards returns exactly n cards removed from
the deck's tail, shrinking the deck by exactly n: the remaining deck followed
by the dealt cards in reverse order is the original deck. -/
theorem deal_cards_spec :
    ∀ (deck : List Card) (n : Nat),
      (deck.length < n → deal_cards deck n = none) ∧
      (n ≤ deck.length → ∃ cs deck',
        deal_cards deck n = some (cs, deck') ∧ cs.length = n ∧
        deck'.length = deck.length - n ∧ deck' ++ cs.reverse = deck) := by
  intro deck n
  induction n generalizing deck with
  | zero =>
    refine ⟨fun h => absurd h (by omega), fun _ => ⟨[], deck, rfl, rfl, by omega, by simp⟩⟩
  | succ m ih =>
    cases deck using List.reverseRecOn with
    | nil =>
      refine ⟨fun _ => rfl, fun h => absurd h (by simp)⟩
    | append_singleton ds d =>
      have hpop : popCard (ds ++ [d]) = some (d, ds) := by
        unfold popCard
        rw [List.getLast?_concat, List.dropLast_concat]
      have hstep : deal_cards (ds ++ [d]) (m + 1)
          = (match deal_cards ds m with
              | none => none
              | some (cs, deck2) => some (d :: cs, deck2)) := by
        conv_lhs => unfold deal_cards
        rw [hpop]
      constructor
      · intro h
        have hlen : ds.length < m := by
          simp at h
          omega
        rw [hstep, (ih ds).1 hlen]
      · intro h
        have hlen : m ≤ ds.length := by
          simp at h
          omega
        obtain ⟨cs, deck', hrec, hcl, hdl, happ⟩ := (ih ds).2 hlen
        refine ⟨d :: cs, deck', ?_, by simp [hcl], by simp; omega, ?_⟩
        · rw [hstep, hrec]
        · rw [List.reverse_cons, ← List.append_assoc, happ]

/-- C10 witness: from a 3-card deck, requesting 4 cards fails, and requesting
2 cards deals exactly the 2 tail cards and shrinks the deck to 1 card. -/
theorem deal_cards_witness :
    deal_cards [(2, Suit.spades), (3, Suit.hearts), (4, Suit.diamonds)] 4 = none ∧
    (∃ cs deck',
      deal_cards [(2, Suit.spades), (3, Suit.hearts), (4, Suit.diamonds)] 2
          = some (cs, deck') ∧ cs.length = 2 ∧
      deck'.length = ([(2, Suit.spades), (3, Suit.hearts), (4, Suit.diamonds)] : List Card).length
          - 2 ∧
      deck' ++ cs.reverse = [(2, Suit.spades), (3, Suit.hearts), (4, Suit.diamonds)]) :=
  ⟨(deal_cards_spec [(2, Suit.spades), (3, Suit.hearts), (4, Suit.diamonds)] 4).1 (by decide),
   (deal_cards_spec [(2, Suit.spades), (3, Suit.hearts), (4, Suit.diamonds)] 2).2 (by decide)⟩

theorem sortDesc_eq_of_perm {α : Type} [LinearOrder α] {l l' : List α} (h : l.Perm l') :
    sortDesc l = sortDesc l' := by
  unfold sortDesc
  have hperm : (l.insertionSort (· ≤ ·)).Perm (l'.insertionSort (· ≤ ·)) :=
    (List.perm_insertionSort _ _).trans (h.trans (List.perm_insertionSort _ _).symm)
  rw [List.eq_of_perm_of_sorted hperm (List.sorted_insertionSort _ _)
    (List.sorted_insertionSort _ _)]

/-- C8: the wheel hand A-2-3-4-5 evaluates to category 4 (straight) with
tiebreakers [5,4,3,2,1]; more generally every five-card hand whose ranks are
a permutation of A,5,4,3,2 gets tiebreaker list [5,4,3,2,1] (ace low), never
[14,5,4,3,2]. -/
theorem wheel_straight :
    evaluate_hand [(14, Suit.clubs), (2, Suit.diamonds), (3, Suit.hearts),
        (4, Suit.spades), (5, Suit.clubs)] = (4, [5, 4, 3, 2, 1]) ∧
    ∀ hand : Hand, (hand.map Prod.fst).Perm [14, 5, 4, 3, 2] →
      (evaluate_hand hand).2 = [5, 4, 3, 2, 1] := by
  constructor
  · decide
  · intro hand hperm
    have hsort : sortDesc (hand.map Prod.fst) = [14, 5, 4, 3, 2] := by
      rw [sortDesc_eq_of_perm hperm]
      decide
    unfold evaluate_hand
    rw [hsort]
    cases hfl : ((hand.map Prod.snd).dedup.length == 1) with
    | true => decide
    | false => decide

/-- C8 witness: a differently ordered wheel hand still gets tiebreakers
[5,4,3,2,1]. -/
theorem wheel_straight_witness :
    (evaluate_hand [(2, Suit.diamonds), (3, Suit.hearts), (4, Suit.spades),
        (5, Suit.clubs), (14, Suit.clubs)]).2 = [5, 4, 3, 2, 1] :=
  wheel_straight.2 _ (by decide)

theorem lexLtL_irrefl : ∀ l : List Int, lexLtL l l = false := by
  intro l
  induction l with
  | nil => rfl
  | cons a t ih => simp [lexLtL, lt_irrefl, ih]

theorem lexLtL_asymm : ∀ (a b : List Int), lexLtL a b = true → lexLtL b a = false := by
  intro a
  induction a with
  | nil =>
    intro b h
    cases b with
    | nil => simp [lexLtL] at h
    | cons y ys => simp [lexLtL]
  | cons x xs ih =>
    intro b h
    cases b with
    | nil => simp [lexLtL] at h
    | cons y ys =>
      simp only [lexLtL] at h ⊢
      rcases lt_trichotomy x y with hxy | hxy | hxy
      · rw [if_neg (by omega), if_pos hxy]
      · subst hxy
        rw [if_neg (lt_irrefl x), if_neg (lt_irrefl x)] at h ⊢
        exact ih ys h
      · rw [if_neg (by omega), if_pos hxy] at h
        exact absurd h (by simp)

theorem lexLtL_trans : ∀ (a b c : List Int),
    lexLtL a b = true → lexLtL b c = true → lexLtL a c = true := by
  intro a
  induction a with
  | nil =>
    intro b c h1 h2
    cases b with
    | nil => simp [lexLtL] at h1
    | cons y ys =>
      cases c with
      | nil => simp [lexLtL] at h2
      | cons z zs => simp [lexLtL]
  | cons x xs ih =>
    intro b c h1 h2
    cases b with
    | nil => simp [lexLtL] at h1
    | cons y ys =>
      cases c with
      | nil => simp [lexLtL] at h2
      | cons z zs =>
        simp only [lexLtL] at h1 h2 ⊢
        rcases lt_trichotomy x y with hxy | hxy | hxy
        · rcases lt_trichotomy y z with hyz | hyz | hyz
          · rw [if_pos (lt_trans hxy hyz)]
          · subst hyz
            rw [if_pos hxy]
          · rw [if_neg (by omega), if_pos hyz] at h2
            exact absurd h2 (by simp)
        · subst hxy
          rw [if_neg (lt_irrefl x), if_neg (lt_irrefl x)] at h1
          rcases lt_trichotomy x z with hxz | hxz | hxz
          · rw [if_pos hxz]
          · subst hxz
            rw [if_neg (lt_irrefl x), if_neg (lt_irrefl x)] at h2 ⊢
            exact ih ys zs h1 h2
          · rw [if_neg (by omega), if_pos hxz] at h2
            exact absurd h2 (by simp)
        · rw [if_neg (by omega), if_pos hxy] at h1
          exact absurd h1 (by simp)

theorem lexLtL_conn : ∀ (a b : List Int),
    lexLtL a b = false → lexLtL b a = false → a = b := by
  intro a
  induction a with
  | nil =>
    intro b h1 _
    cases b with
    | nil => rfl
    | cons y ys => simp [lexLtL] at h1
  | cons x xs ih =>
    intro b h1 h2
    cases b with
    | nil => simp [lexLtL] at h2
    | cons y ys =>
      simp only [lexLtL] at h1 h2
      rcases lt_trichotomy x y with hxy | hxy | hxy
      · rw [if_pos hxy] at h1
        exact absurd h1 (by simp)
      · subst hxy
        rw [if_neg (lt_irrefl x), if_neg (lt_irrefl x)] at h1 h2
        rw [ih ys h1 h2]
      · rw [if_pos hxy] at h2
        exact absurd h2 (by simp)

theorem scoreLt_irrefl (x : Int × List Int) : scoreLt x x = false := by
  simp [scoreLt, lexLtL_irrefl]

theorem scoreLt_asymm {x y : Int × List Int} (h : scoreLt x y = true) :
    scoreLt y x = false := by
  unfold scoreLt at h ⊢
  rcases lt_trichotomy x.1 y.1 with hxy | hxy | hxy
  · rw [if_neg (show ¬ y.1 < x.1 by omega), if_pos hxy]
  · rw [if_neg (show ¬ x.1 < y.1 by omega), if_neg (show ¬ y.1 < x.1 by omega)] at h
    rw [if_neg (show ¬ y.1 < x.1 by omega), if_neg (show ¬ x.1 < y.1 by omega)]
    exact lexLtL_asymm _ _ h
  · rw [if_neg (show ¬ x.1 < y.1 by omega), if_pos hxy] at h
    exact absurd h (by simp)

theorem scoreLt_trans {x y z : Int × List Int}
    (h1 : scoreLt x y = true) (h2 : scoreLt y z = true) : scoreLt x z = true := by
  unfold scoreLt at h1 h2 ⊢
  rcases lt_trichotomy x.1 y.1 with hxy | hxy | hxy
  · rcases lt_trichotomy y.1 z.1 with hyz | hyz | hyz
    · rw [if_pos (lt_trans hxy hyz)]
    · rw [if_pos (show x.1 < z.1 by omega)]
    · rw [if_neg (show ¬ y.1 < z.1 by omega), if_pos hyz] at h2
      exact absurd h2 (by simp)
  · rcases lt_trichotomy y.1 z.1 with hyz | hyz | hyz
    · rw [if_pos (show x.1 < z.1 by omega)]
    · rw [if_neg (show ¬ x.1 < y.1 by omega), if_neg (show ¬ y.1 < x.1 by omega)] at h1
      rw [if_neg (show ¬ y.1 < z.1 by omega), if_neg (show ¬ z.1 < y.1 by omega)] at h2
      rw [if_neg (show ¬ x.1 < z.1 by omega), if_neg (show ¬ z.1 < x.1 by omega)]
      exact lexLtL_trans _ _ _ h1 h2
    · rw [if_neg (show ¬ y.1 < z.1 by omega), if_pos hyz] at h2
      exact absurd h2 (by simp)
  · rw [if_neg (show ¬ x.1 < y.1 by omega), if_pos hxy] at h1
    exact absurd h1 (by simp)

theorem scoreLt_conn {x y : Int × List Int}
    (h1 : scoreLt x y = false) (h2 : scoreLt y x = false) : x = y := by
  unfold scoreLt at h1 h2
  rcases lt_trichotomy x.1 y.1 with hxy | hxy | hxy
  · rw [if_pos hxy] at h1
    exact absurd h1 (by simp)
  · rw [if_neg (show ¬ x.1 < y.1 by omega), if_neg (show ¬ y.1 < x.1 by omega)] at h1
    rw [if_neg (show ¬ y.1 < x.1 by omega), if_neg (show ¬ x.1 < y.1 by omega)] at h2
    exact Prod.ext_iff.mpr ⟨hxy, lexLtL_conn _ _ h1 h2⟩
  · rw [if_pos hxy] at h2
    exact absurd h2 (by simp)

theorem scoreLt_neg_trans {a b c : Int × List Int}
    (h1 : scoreLt a b = false) (h2 : scoreLt b c = false) : scoreLt a c = false := by
  cases hac : scoreLt a c with
  | false => rfl
  | true =>
    cases hba : scoreLt b a with
    | true =>
      rw [scoreLt_trans hba hac] at h2
      exact absurd h2 (by simp)
    | false =>
      have hab : a = b := scoreLt_conn h1 hba
      rw [hab] at hac
      rw [hac] at h2
      exact absurd h2 (by simp)

theorem maxScore_true {a c : Int × List Int} (h : scoreLt a c = true) : maxScore a c = c := by
  simp [maxScore, h]

theorem maxScore_false {a c : Int × List Int} (h : scoreLt a c = false) : maxScore a c = a := by
  simp [maxScore, h]

theorem maxScore_left_comm (b x y : Int × List Int) :
    maxScore (maxScore b x) y = maxScore (maxScore b y) x := by
  cases hbx : scoreLt b x with
  | false =>
    cases hby : scoreLt b y with
    | false =>
      rw [maxScore_false hbx, maxScore_false hby]
      rw [maxScore_false hbx]
    | true =>
      have hyx : scoreLt y x = false := by
        cases hyx : scoreLt y x with
        | false => rfl
        | true =>
          rw [scoreLt_trans hby hyx] at hbx
          exact absurd hbx (by simp)
      rw [maxScore_false hbx, maxScore_true hby]
      rw [maxScore_false hyx]
  | true =>
    cases hby : scoreLt b y with
    | false =>
      have hxy : scoreLt x y = false := by
        cases hxy : scoreLt x y with
        | false => rfl
        | true =>
          rw [scoreLt_trans hbx hxy] at hby
          exact absurd hby (by simp)
      rw [maxScore_true hbx, maxScore_false hby]
      rw [maxScore_false hxy, maxScore_true hbx]
    | true =>
      rw [maxScore_true hbx, maxScore_true hby]
      cases hxy : scoreLt x y with
      | true =>
        rw [maxScore_true hxy, maxScore_false (scoreLt_asymm hxy)]
      | false =>
        cases hyx : scoreLt y x with
        | true =>
          rw [maxScore_false hxy, maxScore_true hyx]
        | false =>
          rw [maxScore_false hxy, maxScore_false hyx, scoreLt_conn hxy hyx]

theorem foldl_maxScore_perm :
    ∀ {l₁ l₂ : List (Int × List Int)}, l₁.Perm l₂ →
      ∀ b, l₁.foldl maxScore b = l₂.foldl maxScore b := by
  intro l₁ l₂ h
  induction h with
  | nil => intro b; rfl
  | cons x _ ih =>
    intro b
    simp only [List.foldl_cons]
    exact ih _
  | swap x y l =>
    intro b
    simp only [List.foldl_cons]
    rw [maxScore_left_comm]
  | trans _ _ ih1 ih2 =>
    intro b
    rw [ih1, ih2]

theorem foldl_maxScore_not_lt :
    ∀ (l : List (Int × List Int)) (b : Int × List Int),
      scoreLt (l.foldl maxScore b) b = false := by
  intro l
  induction l with
  | nil => intro b; exact scoreLt_irrefl b
  | cons x t ih =>
    intro b
    simp only [List.foldl_cons]
    have h1 : scoreLt (maxScore b x) b = false := by
      cases hbx : scoreLt b x with
      | true => simp [maxScore, hbx, scoreLt_asymm hbx]
      | false => simp [maxScore, hbx, scoreLt_irrefl]
    exact scoreLt_neg_trans (ih (maxScore b x)) h1

theorem foldl_maxScore_ub :
    ∀ (l : List (Int × List Int)) (b x : Int × List Int),
      x ∈ l → scoreLt (l.foldl maxScore b) x = false := by
  intro l
  induction l with
  | nil =>
    intro b x hx
    simp at hx
  | cons a t ih =>
    intro b x hx
    simp only [List.foldl_cons]
    rcases List.mem_cons.mp hx with rfl | hxt
    · have h1 : scoreLt (maxScore b x) x = false := by
        cases hbx : scoreLt b x with
        | true => simp [maxScore, hbx, scoreLt_irrefl]
        | false => simp [maxScore, hbx]
      exact scoreLt_neg_trans (foldl_maxScore_not_lt t (maxScore b x)) h1
    · exact ih _ x hxt

theorem foldl_maxScore_mem :
    ∀ (l : List (Int × List Int)) (b : Int × List Int),
      l.foldl maxScore b = b ∨ l.foldl maxScore b ∈ l := by
  intro l
  induction l with
  | nil => intro b; exact Or.inl rfl
  | cons a t ih =>
    intro b
    simp only [List.foldl_cons]
    rcases ih (maxScore b a) with h | h
    · rw [h]
      unfold maxScore
      split
      · exact Or.inr (List.mem_cons_self _ _)
      · exact Or.inl rfl
    · exact Or.inr (List.mem_cons_of_mem _ h)

theorem scores_perm {l₁ l₂ : List Card} (hp : l₁.Perm l₂) (n : Nat) :
    ((List.sublistsLen n l₁).map (fun c => evaluate_hand c)).Perm
      ((List.sublistsLen n l₂).map (fun c => evaluate_hand c)) := by
  have h1 : Multiset.powersetCard n (l₁ : Multiset Card)
      = Multiset.powersetCard n (l₂ : Multiset Card) :=
    congrArg _ (Multiset.coe_eq_coe.mpr hp)
  have h2 := (Multiset.powersetCard_coe n l₁).symm.trans
    (h1.trans (Multiset.powersetCard_coe n l₂))
  have hperm := Multiset.coe_eq_coe.mp h2
  have h3 := hperm.map scoreM
  rw [List.map_map, List.map_map] at h3
  exact h3

theorem evalCore_fst_nonneg (sr : List Int) (fl : Bool) : 0 ≤ (evalCore sr fl).1 := by
  unfold evalCore
  dsimp only
  split_ifs <;> norm_num

/-- C9: `best_hand_from_seven` is invariant under permutation of its 7 input
cards, and its value is the maximum of `evaluate_hand` over all 21 five-card
subsets under the lexicographic score comparison: it is attained by some
subset and no subset scores strictly above it. -/
theorem best_hand_from_seven_spec :
    ∀ (l₁ l₂ : List Card),
      l₁.length = 7 →
      l₁.Nodup →
      l₁.Perm l₂ →
      best_hand_from_seven l₁ = best_hand_from_seven l₂ ∧
      (∃ c ∈ List.sublistsLen 5 l₁, evaluate_hand c = best_hand_from_seven l₁) ∧
      (∀ c ∈ List.sublistsLen 5 l₁,
        scoreLt (best_hand_from_seven l₁) (evaluate_hand c) = false) := by
  intro l₁ l₂ hlen _ hperm
  refine ⟨?_, ?_, ?_⟩
  · unfold best_hand_from_seven
    exact foldl_maxScore_perm (scores_perm hperm 5) _
  · have hne : List.sublistsLen 5 l₁ ≠ [] := by
      have hchoose : (List.sublistsLen 5 l₁).length = Nat.choose 7 5 := by
        rw [List.length_sublistsLen, hlen]
      intro hcontra
      rw [hcontra] at hchoose
      exact absurd hchoose (by decide)
    rcases foldl_maxScore_mem ((List.sublistsLen 5 l₁).map (fun c => evaluate_hand c))
        (-1, []) with hmem | hmem
    · exfalso
      obtain ⟨c0, hc0⟩ := List.exists_mem_of_ne_nil _ hne
      have hub := foldl_maxScore_ub ((List.sublistsLen 5 l₁).map (fun c => evaluate_hand c))
        (-1, []) (evaluate_hand c0) (List.mem_map_of_mem _ hc0)
      rw [hmem] at hub
      have hcat : 0 ≤ (evaluate_hand c0).1 := evalCore_fst_nonneg _ _
      unfold scoreLt at hub
      rw [if_pos (show (-1 : Int) < (evaluate_hand c0).1 by omega)] at hub
      cases hub
    · rcases List.mem_map.mp hmem with ⟨c, hc, he⟩
      exact ⟨c, hc, he⟩
  · intro c hc
    exact foldl_maxScore_ub _ _ _ (List.mem_map_of_mem _ hc)

/-- C9 witness: a concrete 7-card list and a reordering of it give the same
best hand, which is attained by a 5-card subset and dominates all 21
subsets. -/
theorem best_hand_from_seven_witness :
    best_hand_from_seven [(14, Suit.spades), (13, Suit.spades), (12, Suit.spades),
        (11, Suit.spades), (10, Suit.spades), (2, Suit.hearts), (3, Suit.diamonds)]
      = best_hand_from_seven [(3, Suit.diamonds), (2, Suit.hearts), (10, Suit.spades),
        (11, Suit.spades), (12, Suit.spades), (13, Suit.spades), (14, Suit.spades)] ∧
    (∃ c ∈ List.sublistsLen 5 [(14, Suit.spades), (13, Suit.spades), (12, Suit.spades),
        (11, Suit.spades), (10, Suit.spades), (2, Suit.hearts), (3, Suit.diamonds)],
      evaluate_hand c = best_hand_from_seven [(14, Suit.spades), (13, Suit.spades),
        (12, Suit.spades), (11, Suit.spades), (10, Suit.spades), (2, Suit.hearts),
        (3, Suit.diamonds)]) ∧
    (∀ c ∈ List.sublistsLen 5 [(14, Suit.spades), (13, Suit.spades), (12, Suit.spades),
        (11, Suit.spades), (10, Suit.spades), (2, Suit.hearts), (3, Suit.diamonds)],
      scoreLt (best_hand_from_seven [(14, Suit.spades), (13, Suit.spades), (12, Suit.spades),
        (11, Suit.spades), (10, Suit.spades), (2, Suit.hearts), (3, Suit.diamonds)])
        (evaluate_hand c) = false) :=
  best_hand_from_seven_spec _ _ (by decide) (by decide) (by decide)

end Poker
